import Mathlib

/-!
Shallow embedding of `src/objects/synthetic-module.cc` (V8's SyntheticModule):
the synthetic-module record, its export table of Cells, and the operations
`SetExport`, `SetExportStrict`, `ResolveExport`, `PrepareInstantiate`,
`FinishInstantiate` and `Evaluate`.

Heap objects with identity (Cells, JSPromises) are modelled by Nat ids into
explicit stores carried in a `Heap` record; the `ObjectHashTable` of exports
is an association list from export name to the stored object, with absent
keys reading as the hole (`ObjectHashTable::Lookup` returns the hole for a
missing key). The host evaluation callback (`SyntheticModuleEvaluationSteps`)
is a function that may mutate the heap (via `SetExport`/`SetExportStrict`)
and either returns a value or throws one.
-/

namespace SyntheticModuleSpec

/-- Runtime values as far as this module subsystem observes them: undefined,
the hole sentinel, primitive payloads, and references (by id) to heap Cells
and JSPromises. -/
inductive Value : Type where
  | undef : Value
  | theHole : Value
  | intVal : Int → Value
  | strVal : String → Value
  | cellObj : Nat → Value
  | promiseRef : Nat → Value
  deriving DecidableEq, Repr

/-- Mirrors `Object::IsCell`. -/
def Value.isCell : Value → Bool
  | .cellObj _ => true
  | _ => false

/-- Mirrors `Object::IsJSPromise`. -/
def Value.isJSPromise : Value → Bool
  | .promiseRef _ => true
  | _ => false

/-- State of a JSPromise: pending, or resolved with a value. -/
inductive PromiseState : Type where
  | pending : PromiseState
  | resolved : Value → PromiseState
  deriving DecidableEq, Repr

/-- `Module::Status` as used by the synthetic-module code. -/
inductive ModuleStatus : Type where
  | kUnlinked : ModuleStatus
  | kLinking : ModuleStatus
  | kLinked : ModuleStatus
  | kEvaluating : ModuleStatus
  | kEvaluated : ModuleStatus
  | kErrored : ModuleStatus
  deriving DecidableEq, Repr

/-- Numeric rank of a status, for expressing that status never regresses. -/
def statusRank : ModuleStatus → Nat
  | .kUnlinked => 0
  | .kLinking => 1
  | .kLinked => 2
  | .kEvaluating => 3
  | .kEvaluated => 4
  | .kErrored => 5

/-- The two message templates this file raises. -/
inductive MessageTemplate : Type where
  | kModuleExportUndefined : MessageTemplate
  | kUnresolvableExport : MessageTemplate
  deriving DecidableEq, Repr

/-- Errors thrown on the isolate by this file: `NewReferenceError` with one
string argument, `NewSyntaxError` with the module specifier and export name. -/
inductive JSError : Type where
  | ReferenceError : MessageTemplate → String → JSError
  | SyntaxError : MessageTemplate → String → String → JSError
  deriving DecidableEq, Repr

/-- `ObjectHashTable::Lookup`: the hole for a missing key. -/
def tblLookup : List (String × Value) → String → Value
  | [], _ => .theHole
  | (k, v) :: rest, name => if k = name then v else tblLookup rest name

/-- `ObjectHashTable::Put`: overwrite an existing binding or append a new one. -/
def tblPut : List (String × Value) → String → Value → List (String × Value)
  | [], name, v => [(name, v)]
  | (k, w) :: rest, name, v =>
      if k = name then (name, v) :: rest else (k, w) :: tblPut rest name v

/-- Key list of an export table. -/
def tblKeys (tbl : List (String × Value)) : List String :=
  tbl.map (fun p => p.1)

/-- Well-formedness of an export table: every stored object is a Cell
(the table never stores the hole or a non-cell, so `Lookup = theHole`
means exactly \"key absent\"). -/
def tblWF (tbl : List (String × Value)) : Prop :=
  ∀ p ∈ tbl, (p.2).isCell = true

/-- `Cell::set_value` on the cell store. -/
def cellsSet : List (Nat × Value) → Nat → Value → List (Nat × Value)
  | [], id, v => [(id, v)]
  | (k, w) :: rest, id, v =>
      if k = id then (id, v) :: rest else (k, w) :: cellsSet rest id v

/-- `Cell::value` on the cell store (fresh cells read as undefined). -/
def cellsGet : List (Nat × Value) → Nat → Value
  | [], _ => .undef
  | (k, w) :: rest, id => if k = id then w else cellsGet rest id

/-- Lookup of a promise's state in the promise store. -/
def promLookup : List (Nat × PromiseState) → Nat → Option PromiseState
  | [], _ => none
  | (k, s) :: rest, id => if k = id then some s else promLookup rest id

/-- The heap as this subsystem touches it: the Cell store and the JSPromise
store, each with a fresh-id counter. -/
structure Heap : Type where
  cells : List (Nat × Value)
  nextCellId : Nat
  promises : List (Nat × PromiseState)
  nextPromiseId : Nat
  deriving DecidableEq, Repr

/-- The SyntheticModule record: declared export names (fixed at construction),
the exports hash table, status, the recorded error, and the top-level
capability (a promise reference once set). -/
structure SyntheticModule : Type where
  export_names : List String
  exports : List (String × Value)
  status : ModuleStatus
  recordedError : Option Value
  top_level_capability : Option Value
  deriving DecidableEq, Repr

/-- `SyntheticModule::SetExport`: look the name up in the exports table; if
the result is not a Cell, throw a ReferenceError (kModuleExportUndefined)
and return Nothing; otherwise set the Cell's value and return Just(true). -/
def SetExport (heap : Heap) (module : SyntheticModule) (export_name : String)
    (export_value : Value) : Except JSError (Heap × Bool) :=
  match tblLookup module.exports export_name with
  | .cellObj id =>
      .ok ({ heap with cells := cellsSet heap.cells id export_value }, true)
  | _ =>
      .error (.ReferenceError .kModuleExportUndefined export_name)

/-- `SyntheticModule::SetExportStrict`: CHECK that the looked-up object is a
Cell, call `SetExport`, and CHECK its result; a failed CHECK is fatal
(modelled as `none`). -/
def SetExportStrict (heap : Heap) (module : SyntheticModule) (export_name : String)
    (export_value : Value) : Option Heap :=
  let export_object := tblLookup module.exports export_name
  if export_object.isCell then
    match SetExport heap module export_name export_value with
    | .ok (heap', result) => if result then some heap' else none
    | .error _ => none
  else none

/-- `SyntheticModule::ResolveExport`: return the Cell when bound; otherwise
return the empty MaybeHandle when `must_resolve` is false, and throw a
SyntaxError (kUnresolvableExport, module specifier, export name) when it
is true. -/
def ResolveExport (module : SyntheticModule) (module_specifier : String)
    (export_name : String) (must_resolve : Bool) : Except JSError (Option Nat) :=
  match tblLookup module.exports export_name with
  | .cellObj id => .ok (some id)
  | _ =>
      if !must_resolve then .ok none
      else .error (.SyntaxError .kUnresolvableExport module_specifier export_name)

/-- Loop body of `SyntheticModule::PrepareInstantiate`: for each declared
export name in order, allocate a fresh Cell (`Factory::NewCell`, initialized
to undefined), CHECK that the name is still unbound (the hole), and insert
the Cell. A failed CHECK is fatal (`none`). -/
def prepareInstantiateLoop (heap : Heap) (exports : List (String × Value)) :
    List String → Option (Heap × List (String × Value))
  | [] => some (heap, exports)
  | name :: rest =>
      let cell := heap.nextCellId
      let heap' : Heap := { heap with
        cells := (cell, Value.undef) :: heap.cells
        nextCellId := cell + 1 }
      if tblLookup exports name = Value.theHole then
        prepareInstantiateLoop heap' (tblPut exports name (.cellObj cell)) rest
      else none

/-- `SyntheticModule::PrepareInstantiate`: run the Cell-creation loop over the
declared export names and store the resulting table; returns true. Does not
touch the module status. -/
def PrepareInstantiate (heap : Heap) (module : SyntheticModule) :
    Option (Heap × SyntheticModule × Bool) :=
  match prepareInstantiateLoop heap module.exports module.export_names with
  | some (heap', exports') => some (heap', { module with exports := exports' }, true)
  | none => none

/-- `SyntheticModule::FinishInstantiate`: unconditionally set status to
kLinked and return true. -/
def FinishInstantiate (module : SyntheticModule) : SyntheticModule × Bool :=
  ({ module with status := .kLinked }, true)

/-- Modelled from the spec: `Module::RecordError` is declared outside this
source excerpt (only its call site is in `synthetic-module.cc`); per the
spec's state machine the module enters the absorbing Errored state and the
triggering error value is recorded on it. -/
def RecordError (module : SyntheticModule) (e : Value) : SyntheticModule :=
  { module with status := .kErrored, recordedError := some e }

/-- The host evaluation callback (`v8::Module::SyntheticModuleEvaluationSteps`):
given the heap and the module handle it may mutate the heap (only through
`SetExport`/`SetExportStrict`, which touch Cells) and either returns a value
or throws one. -/
abbrev HostSteps : Type := Heap → SyntheticModule → Except Value (Value × Heap)

/-- `SyntheticModule::Evaluate`: set status kEvaluating; run the host steps.
On throw: record the error on the module and return the empty MaybeHandle.
On success: set status kEvaluated; if the result is a JSPromise it becomes
the capability unchanged, otherwise a new JSPromise is allocated and resolved
with undefined; store the capability in `top_level_capability`; return the
callback's result. -/
def Evaluate (evaluation_steps : HostSteps) (heap : Heap)
    (module : SyntheticModule) : Option Value × Heap × SyntheticModule :=
  let module' := { module with status := ModuleStatus.kEvaluating }
  match evaluation_steps heap module' with
  | .error e => (none, heap, RecordError module' e)
  | .ok (result, heap₁) =>
      let module'' := { module' with status := ModuleStatus.kEvaluated }
      if result.isJSPromise then
        (some result, heap₁,
          { module'' with top_level_capability := some result })
      else
        let pid := heap₁.nextPromiseId
        let heap₂ : Heap := { heap₁ with
          promises := (pid, PromiseState.resolved Value.undef) :: heap₁.promises
          nextPromiseId := pid + 1 }
        (some result, heap₂,
          { module'' with top_level_capability := some (Value.promiseRef pid) })

/-- Empty heap. -/
def heap0 : Heap := ⟨[], 0, [], 0⟩

/-- A freshly constructed module declaring exports `["a", "b"]`. -/
def m0 : SyntheticModule := ⟨["a", "b"], [], .kUnlinked, none, none⟩

/-- Concrete heap after `PrepareInstantiate heap0 m0`. -/
def heap1c : Heap := ⟨[(1, .undef), (0, .undef)], 2, [], 0⟩

/-- Concrete module after `PrepareInstantiate heap0 m0`. -/
def m1c : SyntheticModule :=
  ⟨["a", "b"], [("a", .cellObj 0), ("b", .cellObj 1)], .kUnlinked, none, none⟩

/-- A host callback that returns the plain value 7 without touching the heap. -/
def stepsOk7 : HostSteps := fun heap _ => .ok (.intVal 7, heap)

/-- A host callback that throws the string "boom". -/
def stepsThrowBoom : HostSteps := fun _ _ => .error (.strVal "boom")

/-- A host callback that returns a pre-existing pending promise object. -/
def stepsReturnPromise : HostSteps := fun heap _ => .ok (.promiseRef 5, heap)

/-- Scenario A host callback: `SetExportStrict(module, "a", 42)`, then return
the literal 7. -/
def scenarioASteps : HostSteps := fun heap module =>
  match SetExportStrict heap module "a" (.intVal 42) with
  | some heap' => .ok (.intVal 7, heap')
  | none => .error (.strVal "strict set failed")

/-- The full Scenario A pipeline on `m0`: PrepareInstantiate, then
FinishInstantiate, then Evaluate with `scenarioASteps`. -/
def scenarioARun : Option Value × Heap × SyntheticModule :=
  match PrepareInstantiate heap0 m0 with
  | some (heap₁, m₁, _) => Evaluate scenarioASteps heap₁ (FinishInstantiate m₁).1
  | none => (none, heap0, m0)

/-- Lookup after `Put`: the overwritten key reads the new value, any other
key is untouched. -/
theorem tblLookup_tblPut (tbl : List (String × Value)) (k : String) (v : Value)
    (n : String) :
    tblLookup (tblPut tbl k v) n = if k = n then v else tblLookup tbl n := by
  induction tbl with
  | nil =>
      by_cases h : k = n <;> simp [tblPut, tblLookup, h]
  | cons p rest ih =>
      obtain ⟨k', w⟩ := p
      by_cases hk : k' = k
      · subst hk
        by_cases hn : k' = n <;> simp [tblPut, tblLookup, hn]
      · by_cases hn : k' = n
        · subst hn
          have hkn : ¬ k = k' := fun h => hk h.symm
          simp [tblPut, tblLookup, hk, hkn]
        · simp [tblPut, tblLookup, hk, hn, ih]

/-- `Put` of a fresh key appends it to the key list. -/
theorem tblKeys_tblPut_of_not_mem (k : String) (v : Value) :
    ∀ tbl : List (String × Value), k ∉ tblKeys tbl →
      tblKeys (tblPut tbl k v) = tblKeys tbl ++ [k] := by
  intro tbl
  induction tbl with
  | nil => intro _; simp [tblPut, tblKeys]
  | cons p rest ih =>
      obtain ⟨k', w⟩ := p
      intro h
      simp only [tblKeys, List.map_cons, List.mem_cons] at h
      push_neg at h
      obtain ⟨h1, h2⟩ := h
      have hk : ¬ k' = k := fun he => h1 he.symm
      have ih' := ih (by simpa [tblKeys] using h2)
      simp [tblPut, hk, tblKeys] at ih' ⊢
      exact ih'

/-- The empty table is well formed. -/
theorem tblWF_nil : tblWF [] := by
  intro p hp
  cases hp

/-- `Put` of a Cell preserves table well-formedness. -/
theorem tblWF_tblPut (k : String) (v : Value) (hv : v.isCell = true) :
    ∀ tbl : List (String × Value), tblWF tbl → tblWF (tblPut tbl k v) := by
  intro tbl
  induction tbl with
  | nil =>
      intro _ p hp
      simp [tblPut] at hp
      subst hp
      exact hv
  | cons q rest ih =>
      obtain ⟨k', w⟩ := q
      intro hWF p hp
      have hw : w.isCell = true := hWF (k', w) (by simp)
      have hrest : tblWF rest := fun q hq => hWF q (List.mem_cons_of_mem _ hq)
      by_cases hk : k' = k
      · rw [tblPut, if_pos hk] at hp
        rcases List.mem_cons.mp hp with h | h
        · rw [h]; exact hv
        · exact hrest p h
      · rw [tblPut, if_neg hk] at hp
        rcases List.mem_cons.mp hp with h | h
        · rw [h]; exact hw
        · exact ih hrest p h

/-- A name outside the key list looks up to the hole. -/
theorem tblLookup_eq_theHole_of_not_mem (n : String) :
    ∀ tbl : List (String × Value), n ∉ tblKeys tbl →
      tblLookup tbl n = Value.theHole := by
  intro tbl
  induction tbl with
  | nil => intro _; rfl
  | cons p rest ih =>
      obtain ⟨k, w⟩ := p
      intro h
      simp only [tblKeys, List.map_cons, List.mem_cons] at h
      push_neg at h
      obtain ⟨h1, h2⟩ := h
      have hk : ¬ k = n := fun he => h1 he.symm
      rw [tblLookup, if_neg hk]
      exact ih (by simpa [tblKeys] using h2)

/-- In a well-formed table, a name that looks up to the hole is not a key. -/
theorem not_mem_of_tblLookup_theHole (n : String) :
    ∀ tbl : List (String × Value), tblWF tbl →
      tblLookup tbl n = Value.theHole → n ∉ tblKeys tbl := by
  intro tbl
  induction tbl with
  | nil => intro _ _ h; cases h
  | cons p rest ih =>
      obtain ⟨k, w⟩ := p
      intro hWF hlook hmem
      have hw : w.isCell = true := hWF (k, w) (by simp)
      have hrest : tblWF rest := fun q hq => hWF q (List.mem_cons_of_mem _ hq)
      simp only [tblKeys, List.map_cons, List.mem_cons] at hmem
      by_cases hk : k = n
      · rw [tblLookup, if_pos hk] at hlook
        rw [hlook] at hw
        cases hw
      · rw [tblLookup, if_neg hk] at hlook
        rcases hmem with h | h
        · exact hk h.symm
        · exact ih hrest hlook (by simpa [tblKeys] using h)

/-- Reading back a cell just written. -/
theorem cellsGet_cellsSet_self (id : Nat) (v : Value) :
    ∀ cs : List (Nat × Value), cellsGet (cellsSet cs id v) id = v := by
  intro cs
  induction cs with
  | nil => simp [cellsSet, cellsGet]
  | cons p rest ih =>
      obtain ⟨k, w⟩ := p
      by_cases hk : k = id
      · simp [cellsSet, cellsGet, hk]
      · simp [cellsSet, cellsGet, hk, ih]

/-- Main lemma about the `PrepareInstantiate` loop: when the declared names
are pairwise distinct and all unbound in the starting table, the loop
succeeds; the resulting table is well formed, its keys are the old keys
followed by the names in declaration order, pre-existing bindings are
untouched, every name is now bound to a Cell holding undefined, and cells
holding undefined keep doing so. -/
theorem prepareInstantiateLoop_spec :
    ∀ (names : List String) (heap : Heap) (exports : List (String × Value)),
      names.Nodup →
      (∀ n ∈ names, tblLookup exports n = Value.theHole) →
      tblWF exports →
      ∃ heap' exports',
        prepareInstantiateLoop heap exports names = some (heap', exports') ∧
        tblWF exports' ∧
        tblKeys exports' = tblKeys exports ++ names ∧
        (∀ n, tblLookup exports n ≠ Value.theHole →
            tblLookup exports' n = tblLookup exports n) ∧
        (∀ n ∈ names, ∃ id, tblLookup exports' n = Value.cellObj id ∧
            cellsGet heap'.cells id = Value.undef) ∧
        (∀ id, cellsGet heap.cells id = Value.undef →
            cellsGet heap'.cells id = Value.undef) := by
  intro names
  induction names with
  | nil =>
      intro heap exports _ _ hWF
      exact ⟨heap, exports, rfl, hWF, by simp, fun n _ => rfl, by simp,
        fun id h => h⟩
  | cons name rest ih =>
      intro heap exports hnodup hfresh hWF
      have hname : tblLookup exports name = Value.theHole := hfresh name (by simp)
      have hnotmem : name ∉ tblKeys exports :=
        not_mem_of_tblLookup_theHole name exports hWF hname
      obtain ⟨hname_rest, hnodup_rest⟩ := List.nodup_cons.mp hnodup
      have hfresh₁ : ∀ n ∈ rest,
          tblLookup (tblPut exports name (.cellObj heap.nextCellId)) n =
            Value.theHole := by
        intro n hn
        have hne : ¬ name = n := fun he => hname_rest (he ▸ hn)
        rw [tblLookup_tblPut, if_neg hne]
        exact hfresh n (List.mem_cons_of_mem _ hn)
      have hWF₁ : tblWF (tblPut exports name (.cellObj heap.nextCellId)) :=
        tblWF_tblPut name (.cellObj heap.nextCellId) rfl exports hWF
      obtain ⟨heap', exports', hloop, hWF', hkeys, hpres, hcells, hcellpres⟩ :=
        ih { heap with
              cells := (heap.nextCellId, Value.undef) :: heap.cells
              nextCellId := heap.nextCellId + 1 }
           (tblPut exports name (.cellObj heap.nextCellId))
           hnodup_rest hfresh₁ hWF₁
      have hput : ∀ n (v : Value),
          tblLookup (tblPut exports name (.cellObj heap.nextCellId)) n = v →
          v ≠ Value.theHole → tblLookup exports' n = v := by
        intro n v hv hne
        have := hpres n (by rw [hv]; exact hne)
        rw [this, hv]
      refine ⟨heap', exports', ?_, hWF', ?_, ?_, ?_, ?_⟩
      · show prepareInstantiateLoop heap exports (name :: rest) = _
        simp only [prepareInstantiateLoop, hname, if_pos]
        exact hloop
      · rw [hkeys, tblKeys_tblPut_of_not_mem name (.cellObj heap.nextCellId)
          exports hnotmem]
        simp
      · intro n hn
        have hne : ¬ name = n := fun he => hn (he ▸ hname)
        have hput_n : tblLookup (tblPut exports name (.cellObj heap.nextCellId)) n =
            tblLookup exports n := by
          rw [tblLookup_tblPut, if_neg hne]
        rw [← hput_n]
        exact hpres n (by rw [hput_n]; exact hn)
      · intro n hn
        rcases List.mem_cons.mp hn with h | h
        · subst h
          refine ⟨heap.nextCellId, ?_, ?_⟩
          · exact hput n (.cellObj heap.nextCellId)
              (by rw [tblLookup_tblPut, if_pos rfl]) (by intro h; cases h)
          · exact hcellpres heap.nextCellId (by simp [cellsGet])
        · exact hcells n h
      · intro id hid
        refine hcellpres id ?_
        by_cases hk : heap.nextCellId = id
        · simp [cellsGet, hk]
        · simp [cellsGet, hk, hid]

/-- Eliminator for a successful `PrepareInstantiate`: it is the loop on the
module's own exports and names, the returned module only has its exports
replaced, and the returned flag is true. -/
theorem prepareInstantiate_elim (heap heap' : Heap)
    (module module' : SyntheticModule) (b : Bool)
    (h : PrepareInstantiate heap module = some (heap', module', b)) :
    ∃ exports',
      prepareInstantiateLoop heap module.exports module.export_names =
        some (heap', exports') ∧
      module' = { module with exports := exports' } ∧ b = true := by
  unfold PrepareInstantiate at h
  cases hl : prepareInstantiateLoop heap module.exports module.export_names with
  | none => rw [hl] at h; cases h
  | some pr =>
      obtain ⟨H, E⟩ := pr
      rw [hl] at h
      injection h with h
      injection h with h1 h2
      injection h2 with h2 h3
      exact ⟨E, by rw [← h1], h2.symm, h3.symm⟩

/-- Claim C4: `SetExport` on a name with no corresponding Cell throws a
ReferenceError (kModuleExportUndefined) back to the caller and produces no
new state (no Cell and no table entry is mutated); `SetExport` on a declared
name overwrites that Cell's value and returns Just(true), and a subsequent
`ResolveExport` of the same name returns the same Cell, which now holds the
written value. -/
theorem setExport_spec (heap : Heap) (module : SyntheticModule)
    (export_name : String) (export_value : Value) (s : String) (b : Bool) :
    ((tblLookup module.exports export_name).isCell = false →
        SetExport heap module export_name export_value =
          Except.error (JSError.ReferenceError
            MessageTemplate.kModuleExportUndefined export_name)) ∧
    (∀ id, tblLookup module.exports export_name = Value.cellObj id →
        SetExport heap module export_name export_value =
          Except.ok ({ heap with cells := cellsSet heap.cells id export_value },
            true) ∧
        ResolveExport module s export_name b = Except.ok (some id) ∧
        cellsGet (cellsSet heap.cells id export_value) id = export_value) := by
  constructor
  · intro hnc
    unfold SetExport
    cases hl : tblLookup module.exports export_name with
    | cellObj id => rw [hl] at hnc; cases hnc
    | undef => rfl
    | theHole => rfl
    | intVal n => rfl
    | strVal t => rfl
    | promiseRef p => rfl
  · intro id hl
    refine ⟨?_, ?_, cellsGet_cellsSet_self id export_value heap.cells⟩
    · unfold SetExport
      rw [hl]
    · unfold ResolveExport
      rw [hl]

/-- Witness for C4 at concrete inputs: on the instantiated module `m1c`,
writing 42 to the declared name "a" succeeds and is observed by
`ResolveExport`, and writing to the undeclared name "zz" throws the
ReferenceError. -/
theorem setExport_spec_witness :
    (SetExport heap1c m1c "a" (Value.intVal 42) =
        Except.ok ({ heap1c with
          cells := cellsSet heap1c.cells 0 (Value.intVal 42) }, true) ∧
      ResolveExport m1c "m" "a" true = Except.ok (some 0) ∧
      cellsGet (cellsSet heap1c.cells 0 (Value.intVal 42)) 0 =
        Value.intVal 42) ∧
    SetExport heap1c m1c "zz" (Value.intVal 1) =
      Except.error (JSError.ReferenceError
        MessageTemplate.kModuleExportUndefined "zz") :=
  ⟨(setExport_spec heap1c m1c "a" (Value.intVal 42) "m" true).2 0 rfl,
   (setExport_spec heap1c m1c "zz" (Value.intVal 1) "m" true).1 rfl⟩

/-- Claim C5: after a successful `PrepareInstantiate` on a freshly
constructed module (empty table, distinct declared names), `ResolveExport`
returns the bound Cell for every declared name; for a non-declared name it
returns the empty MaybeHandle (no error) when `must_resolve` is false and
throws a SyntaxError (kUnresolvableExport, module specifier, export name)
when `must_resolve` is true. -/
theorem resolveExport_after_prepare (heap heap' : Heap)
    (module module' : SyntheticModule) (b : Bool) (s : String)
    (hempty : module.exports = []) (hnodup : module.export_names.Nodup)
    (h : PrepareInstantiate heap module = some (heap', module', b)) :
    (∀ n ∈ module.export_names, ∃ id,
        ResolveExport module' s n true = Except.ok (some id) ∧
        ResolveExport module' s n false = Except.ok (some id)) ∧
    (∀ n, n ∉ module.export_names →
        ResolveExport module' s n false = Except.ok none ∧
        ResolveExport module' s n true =
          Except.error (JSError.SyntaxError
            MessageTemplate.kUnresolvableExport s n)) := by
  obtain ⟨exports', hloop, hmod, _⟩ :=
    prepareInstantiate_elim heap heap' module module' b h
  obtain ⟨H, E, hloop2, hWF, hkeys, _, hcells, _⟩ :=
    prepareInstantiateLoop_spec module.export_names heap module.exports hnodup
      (by intro n _; rw [hempty]; rfl) (by rw [hempty]; exact tblWF_nil)
  rw [hloop2] at hloop
  injection hloop with hloop
  injection hloop with hH hE
  have hexp : module'.exports = E := by
    rw [hmod]
    exact hE.symm
  constructor
  · intro n hn
    obtain ⟨id, hid, _⟩ := hcells n hn
    refine ⟨id, ?_, ?_⟩ <;>
      · unfold ResolveExport
        rw [hexp, hid]
  · intro n hn
    have hnk : n ∉ tblKeys E := by
      rw [hkeys, hempty]
      simpa [tblKeys] using hn
    have hhole : tblLookup E n = Value.theHole :=
      tblLookup_eq_theHole_of_not_mem n E hnk
    constructor <;>
      · unfold ResolveExport
        rw [hexp, hhole]
        rfl

/-- Witness for C5 at concrete inputs: `PrepareInstantiate heap0 m0` yields
`m1c`, on which both declared names resolve to Cells and the undeclared
name "zz" gives no error without `must_resolve` and the SyntaxError with
it. -/
theorem resolveExport_after_prepare_witness :
    (∀ n ∈ m0.export_names, ∃ id,
        ResolveExport m1c "m" n true = Except.ok (some id) ∧
        ResolveExport m1c "m" n false = Except.ok (some id)) ∧
    (∀ n, n ∉ m0.export_names →
        ResolveExport m1c "m" n false = Except.ok none ∧
        ResolveExport m1c "m" n true =
          Except.error (JSError.SyntaxError
            MessageTemplate.kUnresolvableExport "m" n)) :=
  resolveExport_after_prepare heap0 heap1c m0 m1c true "m" rfl (by decide) rfl

/-- Claim C6: on a freshly constructed module (empty table) with pairwise
distinct declared export names, `PrepareInstantiate` succeeds and returns
true; it creates for each declared name a fresh Cell initialized to
undefined, and on completion the export table's key set is exactly the
declared export names, once each (the fatal CHECK on a pre-existing entry
is never hit). -/
theorem prepareInstantiate_builds_table (heap : Heap) (module : SyntheticModule)
    (hempty : module.exports = []) (hnodup : module.export_names.Nodup) :
    ∃ heap' module',
      PrepareInstantiate heap module = some (heap', module', true) ∧
      module'.export_names = module.export_names ∧
      tblKeys module'.exports = module.export_names ∧
      (∀ n ∈ module.export_names, ∃ id,
          tblLookup module'.exports n = Value.cellObj id ∧
          cellsGet heap'.cells id = Value.undef) := by
  obtain ⟨heap', exports', hloop, _, hkeys, _, hcells, _⟩ :=
    prepareInstantiateLoop_spec module.export_names heap module.exports hnodup
      (by intro n _; rw [hempty]; rfl) (by rw [hempty]; exact tblWF_nil)
  refine ⟨heap', { module with exports := exports' }, ?_, rfl, ?_, ?_⟩
  · unfold PrepareInstantiate
    rw [hloop]
  · rw [hkeys, hempty]
    rfl
  · exact hcells

/-- Witness for C6 at concrete inputs: the module declaring `["a", "b"]`
with an empty table instantiates successfully with the stated table shape. -/
theorem prepareInstantiate_builds_table_witness :
    ∃ heap' module',
      PrepareInstantiate heap0 m0 = some (heap', module', true) ∧
      module'.export_names = m0.export_names ∧
      tblKeys module'.exports = m0.export_names ∧
      (∀ n ∈ m0.export_names, ∃ id,
          tblLookup module'.exports n = Value.cellObj id ∧
          cellsGet heap'.cells id = Value.undef) :=
  prepareInstantiate_builds_table heap0 m0 rfl (by decide)

/-- Claim C9: after a successful `PrepareInstantiate` on a freshly
constructed module, `ResolveExport` is idempotent with identity: for every
declared name there is one Cell id such that any two calls with that name
(whatever specifier and `must_resolve` flag) return exactly that Cell. -/
theorem resolveExport_idempotent_identity (heap heap' : Heap)
    (module module' : SyntheticModule) (b : Bool)
    (hempty : module.exports = []) (hnodup : module.export_names.Nodup)
    (h : PrepareInstantiate heap module = some (heap', module', b)) :
    ∀ n ∈ module.export_names, ∃ id,
      ∀ (s₁ s₂ : String) (b₁ b₂ : Bool),
        ResolveExport module' s₁ n b₁ = Except.ok (some id) ∧
        ResolveExport module' s₂ n b₂ = Except.ok (some id) := by
  obtain ⟨exports', hloop, hmod, _⟩ :=
    prepareInstantiate_elim heap heap' module module' b h
  obtain ⟨H, E, hloop2, _, _, _, hcells, _⟩ :=
    prepareInstantiateLoop_spec module.export_names heap module.exports hnodup
      (by intro n _; rw [hempty]; rfl) (by rw [hempty]; exact tblWF_nil)
  rw [hloop2] at hloop
  injection hloop with hloop
  injection hloop with hH hE
  have hexp : module'.exports = E := by
    rw [hmod]
    exact hE.symm
  intro n hn
  obtain ⟨id, hid, _⟩ := hcells n hn
  refine ⟨id, fun s₁ s₂ b₁ b₂ => ⟨?_, ?_⟩⟩ <;>
    · unfold ResolveExport
      rw [hexp, hid]

/-- Witness for C9 at concrete inputs: on `m1c` every declared name of `m0`
has one Cell id returned by all `ResolveExport` calls. -/
theorem resolveExport_idempotent_identity_witness :
    ∃ id, ∀ (s₁ s₂ : String) (b₁ b₂ : Bool),
      ResolveExport m1c s₁ "a" b₁ = Except.ok (some id) ∧
      ResolveExport m1c s₂ "a" b₂ = Except.ok (some id) :=
  resolveExport_idempotent_identity heap0 heap1c m0 m1c true rfl (by decide) rfl
    "a" (by decide)

/-- Claim C10: `FinishInstantiate` is unconditional: on a module in any
status whatsoever it sets the status to kLinked, returns true, and changes
nothing else. -/
theorem finishInstantiate_unconditional (module : SyntheticModule) :
    (FinishInstantiate module).1.status = ModuleStatus.kLinked ∧
    (FinishInstantiate module).2 = true ∧
    (FinishInstantiate module).1.export_names = module.export_names ∧
    (FinishInstantiate module).1.exports = module.exports ∧
    (FinishInstantiate module).1.recordedError = module.recordedError ∧
    (FinishInstantiate module).1.top_level_capability =
      module.top_level_capability :=
  ⟨rfl, rfl, rfl, rfl, rfl, rfl⟩

/-- Claim C1: when the host procedure succeeds, `Evaluate` inspects the
returned value: a promise becomes the module's top-level capability itself
(identity preserved, the heap is left exactly as the host left it — no
wrapper is allocated); any other value makes `Evaluate` allocate a fresh
promise (the next free id) immediately resolved with undefined, which
becomes the top-level capability. -/
theorem evaluate_capability_selection (evaluation_steps : HostSteps)
    (heap heap₁ : Heap) (module : SyntheticModule) (result : Value)
    (h : evaluation_steps heap { module with status := ModuleStatus.kEvaluating } =
        Except.ok (result, heap₁)) :
    (result.isJSPromise = true →
        (Evaluate evaluation_steps heap module).2.2.top_level_capability =
          some result ∧
        (Evaluate evaluation_steps heap module).2.1 = heap₁) ∧
    (result.isJSPromise = false →
        (Evaluate evaluation_steps heap module).2.2.top_level_capability =
          some (Value.promiseRef heap₁.nextPromiseId) ∧
        (Evaluate evaluation_steps heap module).2.1.promises =
          (heap₁.nextPromiseId, PromiseState.resolved Value.undef) ::
            heap₁.promises) := by
  constructor
  · intro hp
    simp only [Evaluate]
    rw [h]
    simp only [hp]
    exact ⟨rfl, rfl⟩
  · intro hp
    simp only [Evaluate]
    rw [h]
    simp only [hp]
    exact ⟨rfl, rfl⟩

/-- Witness for C1 at concrete inputs: a host callback returning the
pre-existing promise object 5; that object is the capability and the heap
is untouched. -/
theorem evaluate_capability_selection_witness :
    ((Value.promiseRef 5).isJSPromise = true →
        (Evaluate stepsReturnPromise heap0 m0).2.2.top_level_capability =
          some (Value.promiseRef 5) ∧
        (Evaluate stepsReturnPromise heap0 m0).2.1 = heap0) ∧
    ((Value.promiseRef 5).isJSPromise = false →
        (Evaluate stepsReturnPromise heap0 m0).2.2.top_level_capability =
          some (Value.promiseRef heap0.nextPromiseId) ∧
        (Evaluate stepsReturnPromise heap0 m0).2.1.promises =
          (heap0.nextPromiseId, PromiseState.resolved Value.undef) ::
            heap0.promises) :=
  evaluate_capability_selection stepsReturnPromise heap0 heap0 m0
    (Value.promiseRef 5) rfl

/-- Claim C2 counterexample: in Scenario A (exports `["a","b"]`, host calls
SetExportStrict(module, "a", 42) and returns 7) the engine-synthesized
top-level capability is resolved with undefined, not with the value 7 the
claim states. -/
theorem scenarioA_capability_not_resolved_with_seven :
    scenarioARun.2.2.top_level_capability = some (Value.promiseRef 0) ∧
    promLookup scenarioARun.2.1.promises 0 =
      some (PromiseState.resolved Value.undef) ∧
    promLookup scenarioARun.2.1.promises 0 ≠
      some (PromiseState.resolved (Value.intVal 7)) :=
  ⟨rfl, rfl, by decide⟩

/-- Claim C2 as amended: in Scenario A, after `Evaluate` succeeds,
`ResolveExport "a"` yields the Cell containing 42, `Evaluate` returns 7,
and the module's top-level capability is an engine-synthesized promise
resolved with undefined (the host's return value 7 is not propagated into
the capability). -/
theorem scenarioA_behavior :
    scenarioARun.1 = some (Value.intVal 7) ∧
    ResolveExport scenarioARun.2.2 "m" "a" true = Except.ok (some 0) ∧
    cellsGet scenarioARun.2.1.cells 0 = Value.intVal 42 ∧
    scenarioARun.2.2.status = ModuleStatus.kEvaluated ∧
    scenarioARun.2.2.top_level_capability = some (Value.promiseRef 0) ∧
    promLookup scenarioARun.2.1.promises 0 =
      some (PromiseState.resolved Value.undef) :=
  ⟨rfl, rfl, rfl, rfl, rfl, rfl⟩

/-- Claim C3: when the host procedure throws, `Evaluate` records the raised
error on the module (going from no recorded error to exactly that error),
returns the empty MaybeHandle, does not set status to kEvaluated, leaves
the top-level capability unset, and allocates nothing on the heap (no
capability object is created on the failure path). -/
theorem evaluate_failure_path (evaluation_steps : HostSteps) (heap : Heap)
    (module : SyntheticModule) (e : Value)
    (h : evaluation_steps heap { module with status := ModuleStatus.kEvaluating } =
        Except.error e)
    (hcap : module.top_level_capability = none)
    (herr : module.recordedError = none) :
    (Evaluate evaluation_steps heap module).1 = none ∧
    (Evaluate evaluation_steps heap module).2.1 = heap ∧
    (Evaluate evaluation_steps heap module).2.2.recordedError = some e ∧
    (Evaluate evaluation_steps heap module).2.2.status ≠
      ModuleStatus.kEvaluated ∧
    (Evaluate evaluation_steps heap module).2.2.top_level_capability = none := by
  simp only [Evaluate]
  rw [h]
  refine ⟨rfl, rfl, rfl, ?_, ?_⟩
  · intro hcontra
    cases hcontra
  · exact hcap

/-- Witness for C3 at concrete inputs: the host callback throwing "boom" on
the fresh module `m0`. -/
theorem evaluate_failure_path_witness :
    (Evaluate stepsThrowBoom heap0 m0).1 = none ∧
    (Evaluate stepsThrowBoom heap0 m0).2.1 = heap0 ∧
    (Evaluate stepsThrowBoom heap0 m0).2.2.recordedError =
      some (Value.strVal "boom") ∧
    (Evaluate stepsThrowBoom heap0 m0).2.2.status ≠
      ModuleStatus.kEvaluated ∧
    (Evaluate stepsThrowBoom heap0 m0).2.2.top_level_capability = none :=
  evaluate_failure_path stepsThrowBoom heap0 m0 (Value.strVal "boom")
    rfl rfl rfl

/-- Claim C7 counterexample: `SyntheticModule::PrepareInstantiate` does not
transition the status from kUnlinked to kLinking — after it runs on the
fresh module `m0`, the status is still kUnlinked. -/
theorem prepareInstantiate_status_not_linking_cex :
    m0.status = ModuleStatus.kUnlinked ∧
    Option.map (fun r => r.2.1.status) (PrepareInstantiate heap0 m0) =
      some ModuleStatus.kUnlinked ∧
    ModuleStatus.kUnlinked ≠ ModuleStatus.kLinking :=
  ⟨rfl, rfl, by decide⟩

/-- Claim C7 as amended: `PrepareInstantiate` leaves the status unchanged
(the Unlinked-to-Linking transition is its caller's responsibility, outside
this file); `FinishInstantiate` advances to kLinked and returns true;
`Evaluate` runs the host procedure on the module with status kEvaluating
(the shape of hypothesis `h2`), and a successful host procedure yields
kEvaluated; across the normal sequence PrepareInstantiate, then
FinishInstantiate, then a successful Evaluate, starting from kUnlinked, the
status never regresses. -/
theorem status_machine_normal_sequence (evaluation_steps : HostSteps)
    (heap heap₁ heap₂ : Heap) (module module₁ : SyntheticModule) (b : Bool)
    (result : Value)
    (h0 : module.status = ModuleStatus.kUnlinked)
    (h1 : PrepareInstantiate heap module = some (heap₁, module₁, b))
    (h2 : evaluation_steps heap₁
        { (FinishInstantiate module₁).1 with
            status := ModuleStatus.kEvaluating } =
        Except.ok (result, heap₂)) :
    module₁.status = ModuleStatus.kUnlinked ∧
    (FinishInstantiate module₁).1.status = ModuleStatus.kLinked ∧
    (Evaluate evaluation_steps heap₁
        (FinishInstantiate module₁).1).2.2.status = ModuleStatus.kEvaluated ∧
    statusRank module.status ≤ statusRank module₁.status ∧
    statusRank module₁.status ≤
      statusRank (FinishInstantiate module₁).1.status ∧
    statusRank (FinishInstantiate module₁).1.status ≤
      statusRank (Evaluate evaluation_steps heap₁
        (FinishInstantiate module₁).1).2.2.status := by
  obtain ⟨exports', _, hmod, _⟩ :=
    prepareInstantiate_elim heap heap₁ module module₁ b h1
  have hstat : module₁.status = ModuleStatus.kUnlinked := by
    rw [hmod]
    exact h0
  have heval : (Evaluate evaluation_steps heap₁
      (FinishInstantiate module₁).1).2.2.status = ModuleStatus.kEvaluated := by
    simp only [Evaluate]
    rw [h2]
    cases hres : result.isJSPromise
    · simp only [hres]
      rfl
    · simp only [hres]
      rfl
  refine ⟨hstat, rfl, heval, ?_, ?_, ?_⟩
  · rw [h0, hstat]
  · rw [hstat]
    exact Nat.zero_le _
  · rw [heval]
    show statusRank ModuleStatus.kLinked ≤ statusRank ModuleStatus.kEvaluated
    exact Nat.le_of_lt (by decide)

/-- Witness for C7 at concrete inputs: the normal sequence on `m0` with a
host callback returning 7. -/
theorem status_machine_normal_sequence_witness :
    m1c.status = ModuleStatus.kUnlinked ∧
    (FinishInstantiate m1c).1.status = ModuleStatus.kLinked ∧
    (Evaluate stepsOk7 heap1c
        (FinishInstantiate m1c).1).2.2.status = ModuleStatus.kEvaluated ∧
    statusRank m0.status ≤ statusRank m1c.status ∧
    statusRank m1c.status ≤ statusRank (FinishInstantiate m1c).1.status ∧
    statusRank (FinishInstantiate m1c).1.status ≤
      statusRank (Evaluate stepsOk7 heap1c
        (FinishInstantiate m1c).1).2.2.status :=
  status_machine_normal_sequence stepsOk7 heap0 heap1c heap1c m0 m1c true
    (Value.intVal 7) rfl rfl rfl

/-- Claim C8: when the host procedure succeeds, `Evaluate` sets the
top-level capability field (from unset to set, assigned once on this path)
and returns the original host-provided value to its caller — not the
capability: when a new capability was synthesized, the returned value is
distinct from the stored capability. -/
theorem evaluate_returns_host_value (evaluation_steps : HostSteps)
    (heap heap₁ : Heap) (module : SyntheticModule) (result : Value)
    (h : evaluation_steps heap { module with status := ModuleStatus.kEvaluating } =
        Except.ok (result, heap₁))
    (hcap : module.top_level_capability = none) :
    (Evaluate evaluation_steps heap module).1 = some result ∧
    ((Evaluate evaluation_steps heap module).2.2.top_level_capability).isSome =
      true ∧
    (result.isJSPromise = false →
        (Evaluate evaluation_steps heap module).2.2.top_level_capability ≠
          some result) := by
  simp only [Evaluate]
  rw [h]
  cases hres : result.isJSPromise
  · simp only [hres]
    refine ⟨rfl, rfl, fun _ hcontra => ?_⟩
    have hpr : Value.promiseRef heap₁.nextPromiseId = result :=
      Option.some_injective _ hcontra
    rw [← hpr] at hres
    cases hres
  · simp only [hres]
    refine ⟨rfl, rfl, fun hcontra _ => ?_⟩
    cases hcontra

/-- Witness for C8 at concrete inputs: the host callback returning the plain
value 7; `Evaluate` returns 7 while the stored capability is the fresh
promise, a different object. -/
theorem evaluate_returns_host_value_witness :
    (Evaluate stepsOk7 heap0 m0).1 = some (Value.intVal 7) ∧
    ((Evaluate stepsOk7 heap0 m0).2.2.top_level_capability).isSome = true ∧
    ((Value.intVal 7).isJSPromise = false →
        (Evaluate stepsOk7 heap0 m0).2.2.top_level_capability ≠
          some (Value.intVal 7)) :=
  evaluate_returns_host_value stepsOk7 heap0 heap0 m0 (Value.intVal 7) rfl rfl

end SyntheticModuleSpec
